import Mathlib

/-!
Verification of the TextParsers repository: an entity matcher
(`TextParser.findLinkableElements`) and an input-masking engine (`InputMask`).
Strings are modelled as `List Char`; the JavaScript regular expressions are
embedded as hand-written backtracking matchers that follow the engine's
leftmost-match, greedy-with-backtracking semantics for the exact patterns in
the source.  JavaScript `null` is modelled by `Option.none`, a thrown
`TypeError` by `Except.error`.
-/

abbrev Str := List Char

/-! ## Mask engine (`inputMask` source file) -/

/-- Type `MaskToken` from the source: an acceptance predicate plus an optional
per-character transform.  The `optional` field of the TypeScript type is kept
(as `optionalFlag`) even though the engine never reads it. -/
structure MaskToken where
  pattern : Char → Bool
  optionalFlag : Bool := false
  transform : Option (Char → Char) := none

def applyTransform (t : MaskToken) (c : Char) : Char :=
  match t.transform with
  | some f => f c
  | none => c

abbrev TokenTable := Char → Option MaskToken

/-- ASCII hex-digit test, the `/[0-9a-fA-F]/` class. -/
def isHexC (c : Char) : Bool :=
  c.isDigit || ('a' ≤ c && c ≤ 'f') || ('A' ≤ c && c ≤ 'F')

/-- Table `InputMask.DEFAULT_TOKENS` from the source. -/
def defaultTokens : TokenTable := fun c =>
  if c = '9' then some { pattern := Char.isDigit, transform := some id }
  else if c = 'a' then some { pattern := Char.isAlpha, transform := some Char.toLower }
  else if c = 'A' then some { pattern := Char.isAlpha, transform := some Char.toUpper }
  else if c = '*' then some { pattern := Char.isAlphanum }
  else if c = '#' then some { pattern := Char.isAlphanum }
  else if c = 'x' then some { pattern := isHexC }
  else if c = 'X' then some { pattern := isHexC, transform := some Char.toUpper }
  else none

/-- The `mask` field of `MaskOptions`: `string | string[]`. -/
inductive MaskPattern where
  | single (s : Str)
  | multi (l : List Str)

/-- Type `MaskOptions` from the source.  TypeScript optional fields that the code
distinguishes from their defaults (via `??` or truthiness) are `Option`s;
an absent `tokens` record behaves exactly like an empty one, so it is a
plain `TokenTable`. -/
structure MaskOptions where
  mask : MaskPattern
  tokens : TokenTable := fun _ => none
  placeholder : Option Str := none
  autoClear : Option Bool := none
  stripMask : Option Bool := none
  allowEmpty : Option Bool := none

/-- The list of template candidates: `Array.isArray(options.mask) ? options.mask : [options.mask]`. -/
def masksOf (o : MaskOptions) : List Str :=
  match o.mask with
  | .single s => [s]
  | .multi l => l

/-- The token table for the `mac` preset. -/
def macTokens : TokenTable := fun c =>
  if c = 'X' then some { pattern := isHexC, transform := some Char.toUpper } else none

/-- Preset table `InputMask.PRESET_MASKS` from the source, as a lookup by name. -/
def presetLookup (name : Str) : Option MaskOptions :=
  if name = "phone".toList then
    some { mask := .single "(999) 999-9999".toList, autoClear := some true }
  else if name = "phoneExt".toList then
    some { mask := .single "(999) 999-9999? x99999".toList, autoClear := some false }
  else if name = "phoneInt".toList then
    some { mask := .single "+9 (999) 999-9999".toList, autoClear := some true }
  else if name = "date".toList then
    some { mask := .single "99/99/9999".toList, placeholder := some "mm/dd/yyyy".toList }
  else if name = "time".toList then
    some { mask := .single "99:99".toList, placeholder := some "hh:mm".toList }
  else if name = "datetime".toList then
    some { mask := .single "99/99/9999 99:99".toList, placeholder := some "mm/dd/yyyy hh:mm".toList }
  else if name = "ssn".toList then
    some { mask := .single "999-99-9999".toList, autoClear := some true }
  else if name = "creditCard".toList then
    some { mask := .single "9999 9999 9999 9999".toList, autoClear := some true }
  else if name = "currency".toList then
    some { mask := .single "$999,999,999.99".toList, autoClear := some false, allowEmpty := some true }
  else if name = "ipv4".toList then
    some { mask := .single "999.999.999.999".toList, autoClear := some true }
  else if name = "mac".toList then
    some { mask := .single "XX:XX:XX:XX:XX:XX".toList, tokens := macTokens }
  else none

/-- Object-spread merge of two token records; keys of `override` win. -/
def mergeTokens (base override : TokenTable) : TokenTable := fun c =>
  match override c with
  | some t => some t
  | none => base c

/-- An `InputMask` instance: the `Required<MaskOptions>` stored by the
constructor plus the pre-merged token table. -/
structure InputMask where
  options : MaskOptions
  tokens : TokenTable

/-- The `InputMask` constructor.  `options?.mask || ""` maps a missing mask
to the empty single template and keeps everything else (the empty string is
falsy but is replaced by itself); `?? true` / `?? false` defaults are applied
to the flags, `options?.placeholder || "_"` to the placeholder. -/
def mkInputMask (opts : Option MaskOptions) : InputMask :=
  let o := opts.getD { mask := .single [] }
  { options :=
      { mask := o.mask
        tokens := o.tokens
        placeholder := some (match o.placeholder with
          | some s => if s.isEmpty then "_".toList else s
          | none => "_".toList)
        autoClear := some (o.autoClear.getD true)
        stripMask := some (o.stripMask.getD false)
        allowEmpty := some (o.allowEmpty.getD false) }
    tokens := mergeTokens defaultTokens o.tokens }

/-- Result of the inner `while` loop of `processValue` for one token slot. -/
inductive ConsumeR where
  | found (c : Char) (rest : Str)
  | exhausted
  | reject

/-- The inner `while` loop of `processValue`: read input characters until one
satisfies the token (appending its transform), rejecting on the first
mismatch unless optional mode is on. -/
def consume (tok : MaskToken) (isOpt : Bool) : Str → ConsumeR
  | [] => .exhausted
  | c :: rest =>
    if tok.pattern c then .found (applyTransform tok c) rest
    else if isOpt then consume tok isOpt rest
    else .reject

/-- The body of `InputMask.processValue`, walking the template with the
remaining input, the optional-mode flag and the accumulated result.
JavaScript `null` is `none`. -/
def pvAux (tokens : TokenTable) (autoClear : Bool) : Str → Str → Bool → Str → Option Str
  | [], _, _, acc => some acc
  | _ :: _, [], isOpt, acc =>
    if isOpt then some acc else if autoClear then some [] else none
  | m :: ms, v@(_ :: _), isOpt, acc =>
    if m = '?' then pvAux tokens autoClear ms v true acc
    else
      match tokens m with
      | some tok =>
        match consume tok isOpt v with
        | .found c rest => pvAux tokens autoClear ms rest isOpt (acc ++ [c])
        | .exhausted => pvAux tokens autoClear ms [] isOpt acc
        | .reject => if autoClear then some [] else none
      | none =>
        pvAux tokens autoClear ms (if v.head? = some m then v.tail else v) isOpt (acc ++ [m])

/-- Operation `InputMask.processValue(value, pattern, tokens, options)`: `options` is
only consulted for the truthiness of `autoClear`. -/
def processValue (value p : Str) (tokens : TokenTable) (options : MaskOptions) : Option Str :=
  pvAux tokens (options.autoClear.getD false) p value false []

/-- The single JavaScript fault the mask engine can raise: iterating
`undefined` when `masks[0]` is taken from an empty template array. -/
inductive JsError where
  | typeError
deriving DecidableEq

def firstSome {α β : Type} (f : α → Option β) : List α → Option β
  | [] => none
  | a :: l =>
    match f a with
    | some b => some b
    | none => firstSome f l

/-- Operation `InputMask.applyMask`: try each template, fall back to the empty string
for an allowed empty value, then to the first template.  With an empty
template list the final fallback evaluates `masks[0]` (`undefined`) and the
`for...of` inside `processValue` throws. -/
def applyMask (inst : InputMask) (value : Str) (options : MaskOptions) : Except JsError Str :=
  match firstSome (fun p => processValue value p (mergeTokens inst.tokens options.tokens) options)
      (masksOf options) with
  | some r => .ok r
  | none =>
    if options.allowEmpty.getD false ∧ value = [] then .ok []
    else
      match masksOf options with
      | [] => .error .typeError
      | p :: _ =>
        .ok ((processValue value p (mergeTokens inst.tokens options.tokens) options).getD [])

/-- The `string | MaskOptions` selector of `InputMask.mask`. -/
inductive MaskSel where
  | byName (name : Str)
  | byOptions (o : MaskOptions)

/-- Operation `InputMask.mask(value, maskOpt?)`: a known preset name selects the preset
options wholesale; an unknown string and a missing argument both select the
instance's stored options; an explicit object is used as-is. -/
def InputMask.mask (inst : InputMask) (value : Str) (sel : Option MaskSel) : Except JsError Str :=
  match sel with
  | some (.byName n) =>
    match presetLookup n with
    | some p => applyMask inst value p
    | none => applyMask inst value inst.options
  | some (.byOptions o) => applyMask inst value o
  | none => applyMask inst value inst.options

/-- Operation `InputMask.isComplete`: some stored template yields a non-`null` result. -/
def InputMask.isComplete (inst : InputMask) (value : Str) : Bool :=
  (masksOf inst.options).any fun p =>
    (processValue value p inst.tokens inst.options).isSome

/-- Operation `InputMask.stripMask`: strips non-alphanumerics only when the stored
`stripMask` flag is on. -/
def InputMask.stripMask (inst : InputMask) (value : Str) : Str :=
  if inst.options.stripMask.getD false then value.filter Char.isAlphanum else value

/-- Modelled from the spec's description of `apply` (for comparison with
`applyMask`): resolve to an ordered template list, return the first defined
single-template result; if all fail and `allowEmpty` holds and the input is
empty, the empty string; otherwise the first template's result or the empty
string. -/
def specApplyDesc (inst : InputMask) (value : Str) (options : MaskOptions) : Str :=
  match firstSome (fun p => processValue value p (mergeTokens inst.tokens options.tokens) options)
      (masksOf options) with
  | some r => r
  | none =>
    if options.allowEmpty.getD false ∧ value = [] then []
    else
      (processValue value ((masksOf options).headD []) (mergeTokens inst.tokens options.tokens)
          options).getD []

/-- A value fully conforms to a template when they align position by
position: a placeholder position holds an accepted character that is fixed
by the token's transform, and a literal position holds exactly the literal
character. -/
def conforms (tokens : TokenTable) : Str → Str → Bool
  | [], [] => true
  | m :: ms, c :: vs =>
    (match tokens m with
     | some tok => tok.pattern c && (applyTransform tok c == c)
     | none => c == m) && conforms tokens ms vs
  | _, _ => false

/-- The output of a successful mask run aligns position by position with a
(`'?'`-stripped) template slice: literal positions hold the literal, token
positions hold the transform of some accepted character. -/
def fills (tokens : TokenTable) : Str → Str → Prop
  | [], [] => True
  | m :: ms, c :: cs =>
    (match tokens m with
     | some tok => ∃ d, tok.pattern d = true ∧ c = applyTransform tok d
     | none => c = m) ∧ fills tokens ms cs
  | _, _ => False

/-- Instrumented variant of `pvAux` that stops at the end of the walked
template slice and reports the remaining input, optional flag and
accumulator (`Sum.inr`), or the early return (`Sum.inl`). -/
def pvRun (tokens : TokenTable) (ac : Bool) : Str → Str → Bool → Str → Sum (Option Str) (Str × Bool × Str)
  | [], v, isOpt, acc => .inr (v, isOpt, acc)
  | _ :: _, [], isOpt, acc =>
    .inl (if isOpt then some acc else if ac then some [] else none)
  | m :: ms, v@(_ :: _), isOpt, acc =>
    if m = '?' then pvRun tokens ac ms v true acc
    else
      match tokens m with
      | some tok =>
        match consume tok isOpt v with
        | .found c rest => pvRun tokens ac ms rest isOpt (acc ++ [c])
        | .exhausted => pvRun tokens ac ms [] isOpt acc
        | .reject => .inl (if ac then some [] else none)
      | none => pvRun tokens ac ms (if v.head? = some m then v.tail else v) isOpt (acc ++ [m])

/-- Instance used to exhibit the behaviour of `isComplete` on a template
whose only successful result is empty. -/
def inst8c : InputMask := mkInputMask (some { mask := .single [], autoClear := some false })

/-- Constructor token override making the digit token accept lowercase
letters, used to show that constructor options leak into preset masking. -/
def c7Tokens : TokenTable := fun c =>
  if c = '9' then some { pattern := Char.isLower } else none

deriving instance DecidableEq for Except

/-! ## Entity matcher (`textParser` source file)

Each JavaScript regular expression from `patterns` is embedded as a matcher
`Option Char → Str → Option (γ × Str)`: given the character preceding the
current position (for the `\b`/`\B` assertions) and the remaining text, it
returns the capture payload and the remaining input after the match,
following the regex engine's greedy, backtracking, first-alternative-wins
semantics for that exact pattern. -/

/-- The JavaScript `\w` class `[A-Za-z0-9_]`. -/
def isWordChar (c : Char) : Bool := c.isAlphanum || c = '_'

/-- The JavaScript `\s` class: ASCII whitespace plus the Unicode space
separators, NBSP, line/paragraph separators and the BOM. -/
def jsSpace (c : Char) : Bool :=
  c.val = 32 || (9 ≤ c.val && c.val ≤ 13) || c.val = 160 || c.val = 0x1680 ||
    (0x2000 ≤ c.val && c.val ≤ 0x200A) || c.val = 0x2028 || c.val = 0x2029 ||
    c.val = 0x202F || c.val = 0x205F || c.val = 0x3000 || c.val = 0xFEFF

/-- The `\b` assertion between an optional previous and next character. -/
def boundaryB (prev next : Option Char) : Bool :=
  prev.any isWordChar != next.any isWordChar

/-- Predicate `startsWithStr p s`: `s` begins with `p` (the `String.startsWith` of the
source, on char lists). -/
def startsWithStr : Str → Str → Bool
  | [], _ => true
  | _ :: _, [] => false
  | p :: ps, c :: cs => p == c && startsWithStr ps cs

/-- The `[a-z]{2,}`-style letter class under the `i` flag. -/
def lettersCI (c : Char) : Bool := c.isAlpha

/-- The `[a-z0-9-]` class of the bare-domain URL alternative (`i` flag). -/
def urlLabelChar (c : Char) : Bool := c.isAlphanum || c = '-'

/-- The optional `(?:\/[^\s]*)?` tail of the first URL alternative: consume a
slash and then the maximal run of non-space characters. -/
def urlPath (w : Str) : Str :=
  match w with
  | '/' :: w2 => w2.dropWhile (fun c => !jsSpace c)
  | _ => w

/-- One backtracking attempt of `\S+\.[a-z]{2,}(?:\/[^\s]*)?` with the `\S+`
consuming exactly `k` characters: require a dot, then at least two letters
(taken greedily), then the optional path. -/
def urlBodyAt (t : Str) (k : Nat) : Option Str :=
  match t.drop k with
  | '.' :: v =>
    let l := (v.takeWhile lettersCI).length
    if 2 ≤ l then some (urlPath (v.drop l)) else none
  | _ => none

/-- Greedy backtracking over the `\S+` length, longest first. -/
def urlBodyLoop (t : Str) : Nat → Option Str
  | 0 => none
  | k + 1 =>
    match urlBodyAt t (k + 1) with
    | some r => some r
    | none => urlBodyLoop t k

/-- The scheme alternation `https?:\/\/|www\.` (greedy `s?` first). -/
def urlSchemeRest (s : Str) : Option Str :=
  if startsWithStr "https://".toList s then some (s.drop 8)
  else if startsWithStr "http://".toList s then some (s.drop 7)
  else if startsWithStr "www.".toList s then some (s.drop 4)
  else none

/-- First URL alternative:
`\b(?:https?:\/\/|www\.)\S+\.[a-z]{2,}(?:\/[^\s]*)?`. -/
def urlAltA (prev : Option Char) (s : Str) : Option Str :=
  if boundaryB prev s.head? then
    match urlSchemeRest s with
    | some t => urlBodyLoop t (t.takeWhile (fun c => !jsSpace c)).length
    | none => none
  else none

/-- Trailing `\b` after a known last consumed character. -/
def bAfter (lc : Char) (rest : Str) : Bool := boundaryB (some lc) rest.head?

/-- Backtracking over the `[^\s]*` length of the second alternative's path,
longest first; index `j` means `j` path characters after the slash. -/
def urlBPathLoop (w2 prun : Str) : Nat → Option Str
  | 0 => if bAfter '/' w2 then some w2 else none
  | j + 1 =>
    match prun[j]? with
    | some lc =>
      if bAfter lc (w2.drop (j + 1)) then some (w2.drop (j + 1)) else urlBPathLoop w2 prun j
    | none => urlBPathLoop w2 prun j

/-- The optional `(?:\/[^\s]*)?\b` tail of the second URL alternative:
try the path (with backtracking) first, then the absent-group case, each
followed by the trailing word boundary. `lcLetter` is the last TLD letter. -/
def urlBPath (lcLetter : Char) (w : Str) : Option Str :=
  match w with
  | '/' :: w2 =>
    let prun := w2.takeWhile (fun c => !jsSpace c)
    match urlBPathLoop w2 prun prun.length with
    | some r => some r
    | none => if bAfter lcLetter w then some w else none
  | _ => if bAfter lcLetter w then some w else none

/-- Backtracking over the `[a-z]{2,}` length of the second alternative,
longest first (`l + 2` letters are consumed). -/
def urlBLettersLoop (v : Str) : Nat → Option Str
  | 0 => none
  | 1 => none
  | l + 2 =>
    match
      (match v[l + 1]? with
       | some c => urlBPath c (v.drop (l + 2))
       | none => none) with
    | some r => some r
    | none => urlBLettersLoop v (l + 1)

/-- Backtracking over the `[a-z0-9-]+` length of the second alternative,
longest first, each attempt requiring a dot next. -/
def urlBLoop (s : Str) : Nat → Option Str
  | 0 => none
  | k + 1 =>
    match
      (match s.drop (k + 1) with
       | '.' :: v => urlBLettersLoop v (v.takeWhile lettersCI).length
       | _ => none) with
    | some r => some r
    | none => urlBLoop s k

/-- Second URL alternative: `\b[a-z0-9-]+\.[a-z]{2,}(?:\/[^\s]*)?\b`. -/
def urlAltB (prev : Option Char) (s : Str) : Option Str :=
  if boundaryB prev s.head? then urlBLoop s (s.takeWhile urlLabelChar).length
  else none

/-- The full `patterns.url` matcher: first alternative wins. -/
def urlMatchAt (prev : Option Char) (s : Str) : Option (Unit × Str) :=
  match urlAltA prev s with
  | some rem => some ((), rem)
  | none =>
    match urlAltB prev s with
    | some rem => some ((), rem)
    | none => none

/-- The `[a-z0-9._-]` tail class of hashtags and mentions (`i` flag). -/
def tagChar (c : Char) : Bool := c.isAlphanum || c = '.' || c = '_' || c = '-'

/-- Backtracking over the `[a-z0-9._-]*` length, longest first, each attempt
requiring the trailing `\b`; `d` is the leading letter. -/
def tagEndLoop (d : Char) (rest2 : Str) : Nat → Option Str
  | 0 => if boundaryB (some d) rest2.head? then some rest2 else none
  | k + 1 =>
    match rest2[k]? with
    | some lc =>
      if boundaryB (some lc) (rest2.drop (k + 1)).head? then some (rest2.drop (k + 1))
      else tagEndLoop d rest2 k
    | none => tagEndLoop d rest2 k

/-- The `patterns.hashtag` / `patterns.mention` matcher
`\B<marker>[a-z][a-z0-9._-]*\b` (with marker `#` or `@`). -/
def tagMatchAt (marker : Char) (prev : Option Char) (s : Str) : Option (Unit × Str) :=
  match s with
  | c :: d :: rest2 =>
    if c = marker && !boundaryB prev (some c) && d.isAlpha then
      match tagEndLoop d rest2 (rest2.takeWhile tagChar).length with
      | some rem => some ((), rem)
      | none => none
    else none
  | _ => none

/-- The `[A-Z0-9._%+-]` local-part class of the email pattern (`i` flag). -/
def localChar (c : Char) : Bool :=
  c.isAlphanum || c = '.' || c = '_' || c = '%' || c = '+' || c = '-'

/-- The `[A-Z0-9.-]` domain class of the email pattern (`i` flag). -/
def domChar (c : Char) : Bool := c.isAlphanum || c = '.' || c = '-'

/-- Backtracking over the `[A-Z]{2,}` TLD length, longest first, with the
trailing `\b`. -/
def tldLoop (v : Str) : Nat → Option Str
  | 0 => none
  | 1 => none
  | m + 2 =>
    match
      (match v[m + 1]? with
       | some lc =>
         if boundaryB (some lc) (v.drop (m + 2)).head? then some (v.drop (m + 2)) else none
       | none => none) with
    | some r => some r
    | none => tldLoop v (m + 1)

/-- Backtracking over the domain-part length, longest first, each attempt
requiring a dot next. -/
def domLoop (t : Str) : Nat → Option Str
  | 0 => none
  | k + 1 =>
    match
      (match t.drop (k + 1) with
       | '.' :: v => tldLoop v (v.takeWhile lettersCI).length
       | _ => none) with
    | some r => some r
    | none => domLoop t k

/-- Backtracking over the local-part length, longest first, each attempt
requiring an `@` next. -/
def localLoop (s : Str) : Nat → Option Str
  | 0 => none
  | k + 1 =>
    match
      (match s.drop (k + 1) with
       | '@' :: t => domLoop t (t.takeWhile domChar).length
       | _ => none) with
    | some r => some r
    | none => localLoop s k

/-- The `patterns.email` matcher `\b[A-Z0-9._%+-]+@[A-Z0-9.-]+\.[A-Z]{2,}\b`. -/
def emailMatchAt (prev : Option Char) (s : Str) : Option (Unit × Str) :=
  if boundaryB prev s.head? then
    match localLoop s (s.takeWhile localChar).length with
    | some rem => some ((), rem)
    | none => none
  else none

/-- The markdown-link matcher `\[([^\]]+)\]\(([^)]+)\)`; the payload carries
the label and target captures. -/
def mdLinkMatchAt (_prev : Option Char) (s : Str) : Option ((Str × Str) × Str) :=
  match s with
  | '[' :: t =>
    let lab := t.takeWhile (fun c => c != ']')
    if lab.isEmpty then none
    else
      match t.drop lab.length with
      | ']' :: '(' :: w =>
        let tgt := w.takeWhile (fun c => c != ')')
        if tgt.isEmpty then none
        else
          match w.drop tgt.length with
          | ')' :: rem => some ((lab, tgt), rem)
          | _ => none
      | _ => none
  | _ => none

/-- Capture groups of the phone pattern
`(?:\+?(\d{1,3}))?[-. (]*(\d{3})[-. )]*(\d{3})[-. ]*(\d{4})(?: *x(\d+))?\b`. -/
structure PhoneGroups where
  cc : Option Str
  area : Str
  mid : Str
  line : Str
  ext : Option Str
deriving DecidableEq

/-- The `[-. (]` separator class before the area group. -/
def sep1 (c : Char) : Bool := c = '-' || c = '.' || c = ' ' || c = '('

/-- The `[-. )]` separator class after the area group. -/
def sep2 (c : Char) : Bool := c = '-' || c = '.' || c = ' ' || c = ')'

/-- The `[-. ]` separator class before the line group. -/
def sep3 (c : Char) : Bool := c = '-' || c = '.' || c = ' '

/-- The trailing `\b` when the previous consumed character is a digit. -/
def afterDigitB (rest : Str) : Bool := !(rest.head?.any isWordChar)

/-- Backtracking over the extension `\d+` length, longest first, with the
trailing `\b`; `dtail` is the input right after the `x`. -/
def extLoop (dtail : Str) : Nat → Option (Str × Str)
  | 0 => none
  | j + 1 =>
    if afterDigitB (dtail.drop (j + 1)) then some (dtail.take (j + 1), dtail.drop (j + 1))
    else extLoop dtail j

/-- The extension-group attempt of `(?: *x(\d+))?`: greedy spaces, an `x`,
then at least one digit with the trailing boundary. -/
def extAttempt (t4 : Str) : Option (Str × Str) :=
  match t4.dropWhile (fun c => c = ' ') with
  | c :: d => if c = 'x' then extLoop d (d.takeWhile Char.isDigit).length else none
  | [] => none

/-- The optional `(?: *x(\d+))?\b` tail: try the extension group first, then
the absent-group case with the boundary right after the line digits. -/
def extPart (t4 : Str) : Option (Option Str × Str) :=
  match extAttempt t4 with
  | some (e, rem) => some (some e, rem)
  | none => if afterDigitB t4 then some (none, t4) else none

/-- One `[sep]*(\d{n})` step of the phone pattern: skip the greedy separator
run, then require exactly `n` digits.  The separator classes are disjoint
from `\d`, so the greedy run never needs backtracking. -/
def groupStep (sep : Char → Bool) (n : Nat) (t : Str) : Option (Str × Str) :=
  if ((t.dropWhile sep).take n).length = n && ((t.dropWhile sep).take n).all Char.isDigit then
    some ((t.dropWhile sep).take n, (t.dropWhile sep).drop n)
  else none

/-- The deterministic core of the phone pattern after the country-code
choice: three separator runs with the 3-3-4 digit groups, then the extension
tail. -/
def phoneCore (cc : Option Str) (t : Str) : Option (PhoneGroups × Str) :=
  match groupStep sep1 3 t with
  | some (area, t2) =>
    match groupStep sep2 3 t2 with
    | some (mid, t3) =>
      match groupStep sep3 4 t3 with
      | some (line, t4) =>
        match extPart t4 with
        | some (e, rem) =>
          some ({ cc := cc, area := area, mid := mid, line := line, ext := e }, rem)
        | none => none
      | none => none
    | none => none
  | none => none

/-- Backtracking over the `(\d{1,3})` country-code length, longest first
(bounded by the leading digit run of `t`). -/
def ccLoop (t : Str) (drLen : Nat) : Nat → Option (PhoneGroups × Str)
  | 0 => none
  | k + 1 =>
    match (if k + 1 ≤ drLen then phoneCore (some (t.take (k + 1))) (t.drop (k + 1)) else none) with
    | some r => some r
    | none => ccLoop t drLen k

/-- The full `patterns.phone` matcher: the optional `\+?(\d{1,3})` group is
greedy (with `+` if present, country-code lengths 3, 2, 1), falling back to
the absent group. -/
def phoneMatchAt (_prev : Option Char) (s : Str) : Option (PhoneGroups × Str) :=
  match s with
  | c :: t =>
    if c = '+' then
      match ccLoop t ((t.takeWhile Char.isDigit).length) 3 with
      | some r => some r
      | none => phoneCore none s
    else
      match ccLoop s ((s.takeWhile Char.isDigit).length) 3 with
      | some r => some r
      | none => phoneCore none s
  | [] =>
    match ccLoop s ((s.takeWhile Char.isDigit).length) 3 with
    | some r => some r
    | none => phoneCore none s

/-! ### The `matchAll` scan and `findLinkableElements` -/

/-- The `String.prototype.matchAll` scan: from each position try the matcher,
on success emit `(index, length, payload)` and continue after the match (one
position further for an empty match), otherwise advance one position.  The
fuel is the remaining number of steps; `scanAll` supplies enough for the
whole text. -/
def scanStep {g : Type} (m : Option Char → Str → Option (g × Str)) :
    Nat → Nat → Option Char → Str → List (Nat × Nat × g)
  | 0, _, _, _ => []
  | _ + 1, _, _, [] => []
  | fuel + 1, pos, prev, c :: cs =>
    match m prev (c :: cs) with
    | none => scanStep m fuel (pos + 1) (some c) cs
    | some (a, rem) =>
      if (c :: cs).length - rem.length = 0 then
        (pos, 0, a) :: scanStep m fuel (pos + 1) (some c) cs
      else
        (pos, (c :: cs).length - rem.length, a) ::
          scanStep m fuel (pos + ((c :: cs).length - rem.length))
            ((c :: cs)[(c :: cs).length - rem.length - 1]?)
            ((c :: cs).drop ((c :: cs).length - rem.length))

def scanAll {g : Type} (m : Option Char → Str → Option (g × Str)) (text : Str) :
    List (Nat × Nat × g) :=
  scanStep m (text.length + 1) 0 none text

/-- The `type` discriminator of `TextMatch` (markdown-link written with a
hyphen in the source). -/
inductive MatchType where
  | url | hashtag | mention | email | markdownLink | phone
deriving DecidableEq

/-- Record `TextMatch` from the source; `position.end` is `endPos` (`end` is a
reserved word in Lean). -/
structure TextMatch where
  type : MatchType
  text : Str
  value : Str
  start : Nat
  endPos : Nat
  url : Option Str
deriving DecidableEq

/-- The `baseUrls` argument of `findLinkableElements`. -/
structure BaseUrls where
  hashtags : Option Str := none
  mentions : Option Str := none
  assets : Option Str := none

/-- Type `ParseOptions` from the source (absent flags behave as `false`). -/
structure ParseOptions where
  urls : Bool := false
  hashtags : Bool := false
  mentions : Bool := false
  emails : Bool := false
  phones : Bool := false
  markdownLinks : Bool := false
  markdownHeadings : Bool := false
  markdownLists : Bool := false
  markdownEmphasis : Bool := false
  all : Bool := false

/-- The resolved flags stored by the `TextParser` constructor. -/
structure TextParser where
  urls : Bool
  hashtags : Bool
  mentions : Bool
  emails : Bool
  phones : Bool
  markdownLinks : Bool
  markdownHeadings : Bool
  markdownLists : Bool
  markdownEmphasis : Bool

/-- The `TextParser` constructor: `all` forces every flag. -/
def mkTextParser (o : ParseOptions) : TextParser :=
  { urls := o.all || o.urls
    hashtags := o.all || o.hashtags
    mentions := o.all || o.mentions
    emails := o.all || o.emails
    phones := o.all || o.phones
    markdownLinks := o.all || o.markdownLinks
    markdownHeadings := o.all || o.markdownHeadings
    markdownLists := o.all || o.markdownLists
    markdownEmphasis := o.all || o.markdownEmphasis }

/-- The substring `text[start:end]`, i.e. the matched `match[0]`. -/
def strExtract (text : Str) (a b : Nat) : Str := (text.drop a).take (b - a)

/-- Trimming `base.replace(/\/$/, "")`: drop one trailing slash. -/
def trimTrailSlash (s : Str) : Str :=
  match s.getLast? with
  | some '/' => s.dropLast
  | _ => s

/-- Trimming `target.replace(/^\//, "")`: drop one leading slash. -/
def trimLeadSlash (s : Str) : Str :=
  match s with
  | '/' :: t => t
  | _ => s

/-- Join rule `baseUrls?.x ? base.replace(/\/$/,"") + "/" + v : dflt + v` — a falsy
(absent or empty) base selects the default. -/
def joinBase (base : Option Str) (dflt v : Str) : Str :=
  match base with
  | some b => if b.isEmpty then dflt ++ v else trimTrailSlash b ++ '/' :: v
  | none => dflt ++ v

/-- The formatted phone `value`:
`+{cc} ({area}) {mid}-{line} x{ext}` with optional segments. -/
def phoneFormatted (g : PhoneGroups) : Str :=
  (match g.cc with
   | some cc => '+' :: cc ++ [' ']
   | none => []) ++
  '(' :: g.area ++ ')' :: ' ' :: g.mid ++ '-' :: g.line ++
  (match g.ext with
   | some e => ' ' :: 'x' :: e
   | none => [])

/-- The `tel:` value: `+{cc}{area}{mid}{line};{ext}` with optional segments. -/
def phoneTel (g : PhoneGroups) : Str :=
  (match g.cc with
   | some cc => '+' :: cc
   | none => []) ++ g.area ++ g.mid ++ g.line ++
  (match g.ext with
   | some e => ';' :: e
   | none => [])

/-- The markdown-link `url` derivation. -/
def mdUrl (assets : Option Str) (target : Str) : Str :=
  if startsWithStr "http".toList target then target
  else
    match assets with
    | some b => if b.isEmpty then target else trimTrailSlash b ++ '/' :: trimLeadSlash target
    | none => target

/-- One recognizer branch of `findLinkableElements`: run the scan and build a
`TextMatch` per occurrence, with `match[0]` as the extracted span and the
branch-specific type, value and url derivation `f`. -/
def emitAll {g : Type} (m : Option Char → Str → Option (g × Str)) (text : Str)
    (f : Str → g → MatchType × Str × Option Str) : List TextMatch :=
  (scanAll m text).map fun pr =>
    let raw := strExtract text pr.1 (pr.1 + pr.2.1)
    let tvu := f raw pr.2.2
    { type := tvu.1, text := raw, value := tvu.2.1, start := pr.1, endPos := pr.1 + pr.2.1,
      url := tvu.2.2 }

/-- The comparison key of the final `matches.sort((a, b) => a.position.start - b.position.start)`. -/
def startLE (a b : TextMatch) : Prop := a.start ≤ b.start

instance : DecidableRel startLE := fun a b => Nat.decLe a.start b.start

instance : IsTotal TextMatch startLE := ⟨fun a b => Nat.le_total a.start b.start⟩

instance : IsTrans TextMatch startLE := ⟨fun _ _ _ h1 h2 => Nat.le_trans h1 h2⟩

/-- Operation `TextParser.findLinkableElements(text, baseUrls)`: the six recognizer
branches in source order, concatenated and stably sorted by `start`
(JavaScript's `sort` is stable, so it agrees with insertion sort). -/
def findLinkableElements (tp : TextParser) (text : Str) (baseUrls : BaseUrls) : List TextMatch :=
  ((if tp.urls then
      emitAll urlMatchAt text (fun raw _ =>
        (.url, raw,
          some (if startsWithStr "http".toList raw then raw else "https://".toList ++ raw)))
    else []) ++
   (if tp.hashtags then
      emitAll (tagMatchAt '#') text (fun raw _ =>
        (.hashtag, raw.drop 1, some (joinBase baseUrls.hashtags "/tags/".toList (raw.drop 1))))
    else []) ++
   (if tp.mentions then
      emitAll (tagMatchAt '@') text (fun raw _ =>
        (.mention, raw.drop 1, some (joinBase baseUrls.mentions "/users/".toList (raw.drop 1))))
    else []) ++
   (if tp.emails then
      emitAll emailMatchAt text (fun raw _ => (.email, raw, some ("mailto:".toList ++ raw)))
    else []) ++
   (if tp.phones then
      emitAll phoneMatchAt text (fun _raw g =>
        (.phone, phoneFormatted g, some ("tel:".toList ++ phoneTel g)))
    else []) ++
   (if tp.markdownLinks then
      emitAll mdLinkMatchAt text (fun _raw lt =>
        (.markdownLink, lt.1, some (mdUrl baseUrls.assets lt.2)))
    else [])).insertionSort startLE


/-! ## Supporting lemmas for the mask engine -/

theorem consume_found (tok : MaskToken) :
    ∀ (v : Str) (isOpt : Bool) (c : Char) (rest : Str), consume tok isOpt v = .found c rest →
      ∃ d, tok.pattern d = true ∧ c = applyTransform tok d := by
  intro v
  induction v with
  | nil => intro isOpt c rest h; simp [consume] at h
  | cons a v ih =>
    intro isOpt c rest h
    by_cases hp : tok.pattern a
    · simp [consume, hp] at h
      exact ⟨a, hp, h.1.symm⟩
    · simp only [consume, hp, Bool.false_eq_true, if_false] at h
      by_cases hio : isOpt = true
      · rw [if_pos hio] at h
        exact ih isOpt c rest h
      · rw [if_neg hio] at h
        exact absurd h (by simp)

theorem pvAux_nil_value (tokens : TokenTable) (ac : Bool) (template : Str) (isOpt : Bool)
    (acc res : Str) (h : pvAux tokens ac template [] isOpt acc = some res) :
    res = acc ∨ res = [] := by
  cases template with
  | nil => simp [pvAux] at h; exact Or.inl h.symm
  | cons m ms =>
    simp only [pvAux] at h
    by_cases hio : isOpt
    · rw [if_pos hio] at h; exact Or.inl (Option.some.inj h).symm
    · rw [if_neg hio] at h
      by_cases hac : ac = true
      · rw [if_pos hac] at h; exact Or.inr (Option.some.inj h).symm
      · rw [if_neg hac] at h; exact absurd h (by simp)

theorem pvAux_conforms (tokens : TokenTable) (ac : Bool) :
    ∀ (template value : Str) (isOpt : Bool) (acc : Str), '?' ∉ template →
      conforms tokens template value = true →
      pvAux tokens ac template value isOpt acc = some (acc ++ value) := by
  intro template
  induction template with
  | nil =>
    intro value isOpt acc _ hc
    cases value with
    | nil => simp [pvAux]
    | cons c vs => simp [conforms] at hc
  | cons m ms ih =>
    intro value isOpt acc hq hc
    cases value with
    | nil => simp [conforms] at hc
    | cons c vs =>
      have hm : m ≠ '?' := fun h => hq (h ▸ List.mem_cons_self _ _)
      have hq2 : '?' ∉ ms := fun h => hq (List.mem_cons_of_mem _ h)
      cases htok : tokens m with
      | some tok =>
        have hc2 := hc
        simp only [conforms, htok, Bool.and_eq_true, beq_iff_eq] at hc2
        obtain ⟨⟨hpat, htr⟩, hrest⟩ := hc2
        have hcons : consume tok isOpt (c :: vs) = .found c vs := by
          simp [consume, hpat, htr]
        simp only [pvAux, if_neg hm, htok, hcons]
        rw [ih vs isOpt (acc ++ [c]) hq2 hrest]
        simp
      | none =>
        have hc2 := hc
        simp only [conforms, htok, Bool.and_eq_true, beq_iff_eq] at hc2
        obtain ⟨hcm, hrest⟩ := hc2
        have hhd : (c :: vs).head? = some m := by simp [hcm]
        have hifv : (if (c :: vs).head? = some m then (c :: vs).tail else c :: vs) = vs := by
          rw [if_pos hhd]; rfl
        simp only [pvAux, if_neg hm, htok, hifv]
        rw [ih vs isOpt (acc ++ [m]) hq2 hrest]
        simp [hcm]

theorem pvAux_fills (tokens : TokenTable) (ac : Bool) :
    ∀ (template value : Str) (isOpt : Bool) (acc res : Str),
      pvAux tokens ac template value isOpt acc = some res →
      res = [] ∨ ∃ t k, res = acc ++ t ∧
        fills tokens ((template.filter (fun c => decide (c ≠ '?'))).take k) t := by
  intro template
  induction template with
  | nil =>
    intro value isOpt acc res h
    simp only [pvAux] at h
    exact Or.inr ⟨[], 0, by simpa using (Option.some.inj h).symm, by simp [fills]⟩
  | cons m ms ih =>
    intro value isOpt acc res h
    cases value with
    | nil =>
      rcases pvAux_nil_value tokens ac (m :: ms) isOpt acc res h with h1 | h1
      · exact Or.inr ⟨[], 0, by simp [h1], by simp [fills]⟩
      · exact Or.inl h1
    | cons c0 vs =>
      by_cases hm : m = '?'
      · subst hm
        simp only [pvAux, if_pos rfl] at h
        rcases ih (c0 :: vs) true acc res h with h1 | ⟨t, k, ht, hf⟩
        · exact Or.inl h1
        · refine Or.inr ⟨t, k, ht, ?_⟩
          simpa using hf
      · cases htok : tokens m with
        | some tok =>
          simp only [pvAux, if_neg hm, htok] at h
          cases hcons : consume tok isOpt (c0 :: vs) with
          | found c rest =>
            rw [hcons] at h
            rcases ih rest isOpt (acc ++ [c]) res h with h1 | ⟨t, k, ht, hf⟩
            · exact Or.inl h1
            · refine Or.inr ⟨c :: t, k + 1, by simpa [List.append_assoc] using ht, ?_⟩
              have hd := consume_found tok (c0 :: vs) isOpt c rest hcons
              have hfilter : List.filter (fun c => decide (c ≠ '?')) (m :: ms) =
                  m :: List.filter (fun c => decide (c ≠ '?')) ms := by
                simp [List.filter_cons, hm]
              rw [hfilter, List.take_succ_cons]
              simp only [fills, htok]
              exact ⟨hd, hf⟩
          | exhausted =>
            rw [hcons] at h
            rcases pvAux_nil_value tokens ac ms isOpt acc res h with h1 | h1
            · exact Or.inr ⟨[], 0, by simp [h1], by simp [fills]⟩
            · exact Or.inl h1
          | reject =>
            rw [hcons] at h
            by_cases hac : ac = true
            · rw [if_pos hac] at h; exact Or.inl (Option.some.inj h).symm
            · rw [if_neg hac] at h; exact absurd h (by simp)
        | none =>
          simp only [pvAux, if_neg hm, htok] at h
          rcases ih _ isOpt (acc ++ [m]) res h with h1 | ⟨t, k, ht, hf⟩
          · exact Or.inl h1
          · refine Or.inr ⟨m :: t, k + 1, by simpa [List.append_assoc] using ht, ?_⟩
            have hfilter : List.filter (fun c => decide (c ≠ '?')) (m :: ms) =
                m :: List.filter (fun c => decide (c ≠ '?')) ms := by
              simp [List.filter_cons, hm]
            rw [hfilter, List.take_succ_cons]
            simp only [fills, htok]
            exact ⟨trivial, hf⟩

theorem pvAux_append (tokens : TokenTable) (ac : Bool) :
    ∀ (t1 t2 v : Str) (isOpt : Bool) (acc : Str),
      pvAux tokens ac (t1 ++ t2) v isOpt acc =
        match pvRun tokens ac t1 v isOpt acc with
        | .inl r => r
        | .inr (v2, o2, a2) => pvAux tokens ac t2 v2 o2 a2 := by
  intro t1
  induction t1 with
  | nil => intro t2 v isOpt acc; simp [pvRun]
  | cons m ms ih =>
    intro t2 v isOpt acc
    cases v with
    | nil => simp only [List.cons_append, pvAux, pvRun]
    | cons c0 vs =>
      by_cases hm : m = '?'
      · subst hm
        simp only [List.cons_append, pvAux, pvRun, if_pos rfl]
        exact ih t2 (c0 :: vs) true acc
      · cases htok : tokens m with
        | some tok =>
          cases hcons : consume tok isOpt (c0 :: vs) with
          | found c rest =>
            simp only [List.cons_append, pvAux, pvRun, if_neg hm, htok, hcons]
            exact ih t2 rest isOpt (acc ++ [c])
          | exhausted =>
            simp only [List.cons_append, pvAux, pvRun, if_neg hm, htok, hcons]
            exact ih t2 [] isOpt acc
          | reject =>
            simp only [List.cons_append, pvAux, pvRun, if_neg hm, htok, hcons]
        | none =>
          simp only [List.cons_append, pvAux, pvRun, if_neg hm, htok]
          exact ih t2 _ isOpt (acc ++ [m])

/-! ## Mask-engine claims -/

/-- Claim C3: for every value and resolved `MaskOptions` (with at least one
template, so that "the first template" exists), `applyMask` returns exactly
the spec-described result: the first non-failure single-template result, else
the empty string when `allowEmpty` holds and the value is empty, else the
first template's result or the empty string.  In particular
`apply("", "currency")` returns `""`. -/
theorem claim_c3 :
    (∀ (inst : InputMask) (value : Str) (options : MaskOptions), masksOf options ≠ [] →
      applyMask inst value options = .ok (specApplyDesc inst value options)) ∧
    InputMask.mask (mkInputMask none) [] (some (.byName "currency".toList)) = .ok [] := by
  constructor
  · intro inst value options hne
    unfold applyMask specApplyDesc
    cases h : firstSome
        (fun p => processValue value p (mergeTokens inst.tokens options.tokens) options)
        (masksOf options) with
    | some r => simp [h]
    | none =>
      simp only [h]
      by_cases hc : options.allowEmpty.getD false ∧ value = []
      · rw [if_pos hc, if_pos hc]
      · rw [if_neg hc, if_neg hc]
        cases hm : masksOf options with
        | nil => exact absurd hm hne
        | cons p ps => simp [hm]
  · rfl

/-- Witness for C3 at a concrete input: the template list of the date-style
options is non-empty and `applyMask` agrees with the spec description. -/
theorem claim_c3_witness :
    masksOf { mask := .single "99/99/9999".toList } ≠ [] ∧
    applyMask (mkInputMask none) "12252023".toList { mask := .single "99/99/9999".toList } =
      .ok (specApplyDesc (mkInputMask none) "12252023".toList
        { mask := .single "99/99/9999".toList }) :=
  ⟨by simp [masksOf], claim_c3.1 _ _ _ (by simp [masksOf])⟩

/-- Claim C4: mask idempotence.  For a template without the optional marker
and a value that fully conforms to its literal+token shape, `processValue`
returns the value unchanged. -/
theorem claim_c4 (tokens : TokenTable) (options : MaskOptions) (template value : Str)
    (h1 : '?' ∉ template) (h2 : conforms tokens template value = true) :
    processValue value template tokens options = some value := by
  unfold processValue
  simpa using pvAux_conforms tokens (options.autoClear.getD false) template value false [] h1 h2

/-- Witness for C4: the canonical phone template applied to an already
formatted phone number. -/
theorem claim_c4_witness :
    '?' ∉ "(999) 999-9999".toList ∧
    conforms defaultTokens "(999) 999-9999".toList "(123) 456-7890".toList = true ∧
    processValue "(123) 456-7890".toList "(999) 999-9999".toList defaultTokens
      { mask := .single [] } = some "(123) 456-7890".toList :=
  ⟨by decide, by decide, claim_c4 defaultTokens { mask := .single [] } _ _ (by decide) (by decide)⟩

/-- Counterexample to claim C6: with the explicit options `{ mask: [] }` the
template list is empty, `masks[0]` is `undefined`, and the `for...of` loop in
`processValue` throws a `TypeError` — the core does raise an exception. -/
theorem claim_c6_counterexample :
    InputMask.mask (mkInputMask none) "x".toList (some (.byOptions { mask := .multi [] })) =
      .error .typeError := rfl

/-- Claim C6 as amended: the masking entry point returns normally (never
raises) whenever the resolved template list is non-empty, and also on the
empty template list when `allowEmpty` holds and the value is empty; all other
core operations are total functions in this model. -/
theorem claim_c6_amended :
    (∀ (inst : InputMask) (value : Str) (options : MaskOptions), masksOf options ≠ [] →
      ∃ r, applyMask inst value options = .ok r) ∧
    (∀ (inst : InputMask) (value : Str) (options : MaskOptions),
      options.allowEmpty.getD false = true → value = [] →
      ∃ r, applyMask inst value options = .ok r) := by
  constructor
  · intro inst value options hne
    unfold applyMask
    cases h : firstSome
        (fun p => processValue value p (mergeTokens inst.tokens options.tokens) options)
        (masksOf options) with
    | some r => exact ⟨r, by simp [h]⟩
    | none =>
      by_cases hc : options.allowEmpty.getD false ∧ value = []
      · exact ⟨[], by simp [h, hc]⟩
      · cases hm : masksOf options with
        | nil => exact absurd hm hne
        | cons p ps =>
          refine ⟨(processValue value p (mergeTokens inst.tokens options.tokens) options).getD [],
            ?_⟩
          simp [h, hc, hm]
  · intro inst value options hae hv
    unfold applyMask
    cases h : firstSome
        (fun p => processValue value p (mergeTokens inst.tokens options.tokens) options)
        (masksOf options) with
    | some r => exact ⟨r, by simp [h]⟩
    | none => exact ⟨[], by simp [h, hae, hv]⟩

/-- Witness for the amended C6 at a concrete input. -/
theorem claim_c6_witness :
    masksOf { mask := .single "99".toList } ≠ [] ∧
    ∃ r, applyMask (mkInputMask none) "7".toList { mask := .single "99".toList } = .ok r :=
  ⟨by simp [masksOf], claim_c6_amended.1 _ _ _ (by simp [masksOf])⟩

/-- Counterexample to claim C7: two instances differing only in their
constructor options (a token override making `9` accept lowercase letters)
give different results for the same preset call — preset masking is not
independent of the constructor options. -/
theorem claim_c7_counterexample :
    InputMask.mask (mkInputMask (some { mask := .single [], tokens := c7Tokens }))
        "abcdefghij".toList (some (.byName "phone".toList)) ≠
      InputMask.mask (mkInputMask none) "abcdefghij".toList (some (.byName "phone".toList)) := by
  intro h
  have h1 : InputMask.mask (mkInputMask (some { mask := .single [], tokens := c7Tokens }))
      "abcdefghij".toList (some (.byName "phone".toList)) = .ok "(abc) def-ghij".toList := rfl
  have h2 : InputMask.mask (mkInputMask none) "abcdefghij".toList
      (some (.byName "phone".toList)) = .ok "".toList := rfl
  rw [h1, h2] at h
  simp at h

/-- Claim C7 as amended: for a preset name, `mask(value, presetName)` depends
on the instance only through its merged token table (so the constructor's
templates and flags are ignored, but its token overrides are not). -/
theorem claim_c7_amended (o1 o2 : Option MaskOptions) (value name : Str) (p : MaskOptions)
    (hp : presetLookup name = some p)
    (ht : (mkInputMask o1).tokens = (mkInputMask o2).tokens) :
    InputMask.mask (mkInputMask o1) value (some (.byName name)) =
      InputMask.mask (mkInputMask o2) value (some (.byName name)) := by
  simp only [InputMask.mask]
  rw [hp]
  unfold applyMask
  rw [ht]

/-- Witness for the amended C7: two instances with the same (default) token
table but different stored templates and flags agree on a preset call. -/
theorem claim_c7_witness :
    presetLookup "phone".toList =
      some { mask := .single "(999) 999-9999".toList, autoClear := some true } ∧
    (mkInputMask (some { mask := .single "99".toList, autoClear := some false })).tokens =
      (mkInputMask none).tokens ∧
    InputMask.mask (mkInputMask (some { mask := .single "99".toList, autoClear := some false }))
        "5551234567".toList (some (.byName "phone".toList)) =
      InputMask.mask (mkInputMask none) "5551234567".toList (some (.byName "phone".toList)) :=
  ⟨rfl, rfl, claim_c7_amended _ _ _ _ _ rfl rfl⟩

/-- Counterexample to claim C8: on an `autoClear=false` instance whose only
template is the empty string, `isComplete "a"` is `true`, yet no candidate
template yields a non-empty result — the code only tests for non-`null`,
not for non-empty. -/
theorem claim_c8_counterexample :
    InputMask.isComplete inst8c ['a'] = true ∧
    ¬ ∃ p ∈ masksOf inst8c.options, ∃ r,
        processValue ['a'] p inst8c.tokens inst8c.options = some r ∧ r ≠ [] := by
  refine ⟨rfl, ?_⟩
  rintro ⟨p, hp, r, hr, hne⟩
  have hm : masksOf inst8c.options = [[]] := rfl
  rw [hm] at hp
  have hp2 : p = ([] : Str) := by simpa using hp
  subst hp2
  have hpv : processValue ['a'] [] inst8c.tokens inst8c.options = some [] := rfl
  rw [hpv] at hr
  exact hne (Option.some.inj hr).symm

/-- Claim C8 as amended: for `autoClear=false` instances, `isComplete value`
is true iff at least one candidate template yields a non-`null` (possibly
empty) result from the single-template algorithm. -/
theorem claim_c8_amended (inst : InputMask) (value : Str)
    (_hac : inst.options.autoClear.getD false = false) :
    InputMask.isComplete inst value = true ↔
      ∃ p ∈ masksOf inst.options,
        (processValue value p inst.tokens inst.options).isSome = true := by
  unfold InputMask.isComplete
  simp [List.any_eq_true]

/-- Witness for the amended C8 at a concrete instance and value. -/
theorem claim_c8_witness :
    inst8c.options.autoClear.getD false = false ∧
    (InputMask.isComplete inst8c ['1'] = true ↔
      ∃ p ∈ masksOf inst8c.options,
        (processValue ['1'] p inst8c.tokens inst8c.options).isSome = true) :=
  ⟨rfl, claim_c8_amended inst8c ['1'] rfl⟩

/-- Counterexample to claim C9: `processValue "5" "?9-9"` succeeds with
output `"5"`, but the template literal `-` does not appear in the output at
its template position (the walk stopped when the optional-mode input ran
out) — literals after the optional marker can be absent, not only
placeholders. -/
theorem claim_c9_counterexample :
    processValue ['5'] "?9-9".toList defaultTokens
      { mask := .single [], autoClear := some false } = some ['5'] ∧
    '-' ∈ "?9-9".toList ∧ '-' ∉ ['5'] :=
  ⟨rfl, by decide, by decide⟩

/-- Claim C9 as amended: every successful (non-`null`) output of the
single-template algorithm fully fills a prefix of the `'?'`-stripped
template — each literal position of that prefix holds the literal, each
placeholder position holds the transform of an accepted character — and all
template positions beyond the prefix are simply absent; the placeholder
display character is never consulted, so no placeholder padding can occur. -/
theorem claim_c9_amended (tokens : TokenTable) (options : MaskOptions) (value template res : Str)
    (h : processValue value template tokens options = some res) :
    (∃ k, fills tokens ((template.filter (fun c => decide (c ≠ '?'))).take k) res) ∧
    ∀ ph, processValue value template tokens { options with placeholder := ph } = some res := by
  constructor
  · rcases pvAux_fills tokens (options.autoClear.getD false) template value false [] res h with
      h0 | ⟨t, k, ht, hf⟩
    · subst h0; exact ⟨0, by simp [fills]⟩
    · simp only [List.nil_append] at ht
      subst ht
      exact ⟨k, hf⟩
  · intro ph; exact h

/-- Witness for the amended C9 at a concrete run. -/
theorem claim_c9_witness :
    processValue "12".toList "9-9".toList defaultTokens { mask := .single [] } =
      some "1-2".toList ∧
    (∃ k, fills defaultTokens
        (("9-9".toList.filter (fun c => decide (c ≠ '?'))).take k) "1-2".toList) ∧
    processValue "12".toList "9-9".toList defaultTokens
      { mask := .single [], placeholder := some "#".toList } = some "1-2".toList :=
  ⟨rfl, (claim_c9_amended defaultTokens { mask := .single [] } "12".toList "9-9".toList
      "1-2".toList rfl).1,
    (claim_c9_amended defaultTokens { mask := .single [] } "12".toList "9-9".toList
      "1-2".toList rfl).2 (some "#".toList)⟩

/-- Claim C10: if the walk of the template characters before the optional
marker exhausts the input exactly (reaching the marker with no input left
and optional mode still off), the algorithm returns `null` (or the empty
string under `autoClear`) instead of the accumulated result; concretely, the
`phoneExt` template fails on a plain 10-digit number and the preset call
returns `""`, not `"(123) 456-7890"`. -/
theorem claim_c10 :
    (∀ (tokens : TokenTable) (ac : Bool) (pre post value acc : Str),
      pvRun tokens ac pre value false [] = .inr ([], false, acc) →
      pvAux tokens ac (pre ++ '?' :: post) value false [] =
        if ac then some [] else none) ∧
    processValue "1234567890".toList "(999) 999-9999? x99999".toList defaultTokens
      { mask := .single [], autoClear := some false } = none ∧
    InputMask.mask (mkInputMask none) "1234567890".toList
      (some (.byName "phoneExt".toList)) = .ok [] := by
  refine ⟨?_, rfl, rfl⟩
  intro tokens ac pre post value acc h
  rw [pvAux_append tokens ac pre ('?' :: post) value false [], h]
  rfl

/-- Witness for C10: the `phoneExt` prefix template consumes the ten digits
exactly, and the full template therefore fails. -/
theorem claim_c10_witness :
    pvRun defaultTokens false "(999) 999-9999".toList "1234567890".toList false [] =
      .inr ([], false, "(123) 456-7890".toList) ∧
    pvAux defaultTokens false ("(999) 999-9999".toList ++ '?' :: " x99999".toList)
      "1234567890".toList false [] = none :=
  ⟨rfl, claim_c10.1 defaultTokens false _ _ _ _ rfl⟩

/-! ## Supporting lemmas for the entity matcher -/

theorem scanStep_mem {g : Type} (m : Option Char → Str → Option (g × Str)) (text : Str) :
    ∀ (fuel pos : Nat) (prev : Option Char) (s : Str), s = text.drop pos → pos ≤ text.length →
      ∀ x ∈ scanStep m fuel pos prev s,
        pos ≤ x.1 ∧ x.1 + x.2.1 ≤ text.length ∧
        ∃ prev2 rem, m prev2 (text.drop x.1) = some (x.2.2, rem) ∧
          x.2.1 = (text.drop x.1).length - rem.length := by
  intro fuel
  induction fuel with
  | zero => intro pos prev s _ _ x hx; simp [scanStep] at hx
  | succ fuel ih =>
    intro pos prev s hs hp x hx
    cases s with
    | nil => simp [scanStep] at hx
    | cons c cs =>
      have hlt : pos < text.length := by
        by_contra hge
        have hnil : text.drop pos = [] :=
          List.drop_eq_nil_iff.mpr (Nat.le_of_not_lt hge)
        rw [← hs] at hnil
        exact List.cons_ne_nil c cs hnil
      have hcs : cs = text.drop (pos + 1) := by
        have h1 : (text.drop pos).tail = text.drop (pos + 1) := List.tail_drop text pos
        rw [← hs] at h1
        simpa using h1
      rw [scanStep] at hx
      cases hm : m prev (c :: cs) with
      | none =>
        rw [hm] at hx
        dsimp only at hx
        obtain ⟨h1, h2, h3⟩ := ih (pos + 1) (some c) cs hcs hlt x hx
        exact ⟨Nat.le_trans (Nat.le_succ pos) h1, h2, h3⟩
      | some ar =>
        obtain ⟨a, rem⟩ := ar
        rw [hm] at hx
        dsimp only at hx
        have hlen : (c :: cs).length - rem.length ≤ text.length - pos := by
          have : (c :: cs).length = text.length - pos := by
            rw [hs, List.length_drop]
          omega
      -- the two emission branches
        by_cases h0 : (c :: cs).length - rem.length = 0
        · rw [if_pos h0] at hx
          rcases List.mem_cons.mp hx with hhead | htail
          · subst hhead
            dsimp only
            refine ⟨Nat.le_refl pos, by omega, prev, rem, ?_, ?_⟩
            · rw [← hs]; exact hm
            · rw [← hs]; omega
          · obtain ⟨h1, h2, h3⟩ := ih (pos + 1) (some c) cs hcs hlt x htail
            exact ⟨Nat.le_trans (Nat.le_succ pos) h1, h2, h3⟩
        · rw [if_neg h0] at hx
          rcases List.mem_cons.mp hx with hhead | htail
          · subst hhead
            dsimp only
            refine ⟨Nat.le_refl pos, by omega, prev, rem, ?_, ?_⟩
            · rw [← hs]; exact hm
            · rw [← hs]
          · have hdrop : (c :: cs).drop ((c :: cs).length - rem.length) =
                text.drop (pos + ((c :: cs).length - rem.length)) := by
              rw [hs, List.drop_drop]
            obtain ⟨h1, h2, h3⟩ :=
              ih (pos + ((c :: cs).length - rem.length))
                ((c :: cs)[(c :: cs).length - rem.length - 1]?)
                ((c :: cs).drop ((c :: cs).length - rem.length)) hdrop (by omega) x htail
            exact ⟨by omega, h2, h3⟩

theorem scanAll_mem {g : Type} (m : Option Char → Str → Option (g × Str)) (text : Str)
    (pr : Nat × Nat × g) (h : pr ∈ scanAll m text) :
    pr.1 + pr.2.1 ≤ text.length ∧
    ∃ prev2 rem, m prev2 (text.drop pr.1) = some (pr.2.2, rem) ∧
      pr.2.1 = (text.drop pr.1).length - rem.length := by
  have := scanStep_mem m text (text.length + 1) 0 none text (by simp) (Nat.zero_le _) pr h
  exact ⟨this.2.1, this.2.2⟩

theorem emitAll_mem_iff {g : Type} (m : Option Char → Str → Option (g × Str)) (text : Str)
    (f : Str → g → MatchType × Str × Option Str) (x : TextMatch) :
    x ∈ emitAll m text f ↔
      ∃ pr ∈ scanAll m text,
        x = { type := (f (strExtract text pr.1 (pr.1 + pr.2.1)) pr.2.2).1
              text := strExtract text pr.1 (pr.1 + pr.2.1)
              value := (f (strExtract text pr.1 (pr.1 + pr.2.1)) pr.2.2).2.1
              start := pr.1
              endPos := pr.1 + pr.2.1
              url := (f (strExtract text pr.1 (pr.1 + pr.2.1)) pr.2.2).2.2 } := by
  unfold emitAll
  rw [List.mem_map]
  constructor
  · rintro ⟨pr, hpr, hx⟩
    exact ⟨pr, hpr, hx.symm⟩
  · rintro ⟨pr, hpr, hx⟩
    exact ⟨pr, hpr, hx.symm⟩

theorem mem_of_mem_ite {α : Type} {P : Prop} [Decidable P] {l : List α} {a : α}
    (h : a ∈ (if P then l else [])) : a ∈ l := by
  by_cases hp : P
  · rwa [if_pos hp] at h
  · rw [if_neg hp] at h
    exact absurd h (List.not_mem_nil a)

theorem emitAll_bounds {g : Type} (m : Option Char → Str → Option (g × Str)) (text : Str)
    (f : Str → g → MatchType × Str × Option Str) (x : TextMatch) (hx : x ∈ emitAll m text f) :
    x.start ≤ x.endPos ∧ x.endPos ≤ text.length ∧ strExtract text x.start x.endPos = x.text := by
  rcases (emitAll_mem_iff m text f x).mp hx with ⟨pr, hpr, hxe⟩
  have hb := (scanAll_mem m text pr hpr).1
  subst hxe
  exact ⟨Nat.le_add_right _ _, hb, rfl⟩

/-! ## Entity-matcher claims -/

/-- Claim C1: for every input text and enabled-recognizer configuration,
`findLinkableElements` returns records sorted by ascending `start`, and every
record satisfies `start ≤ endPos ≤ text.length` with `text[start:end]`
equal to the record's raw text. -/
theorem claim_c1 (o : ParseOptions) (text : Str) (bu : BaseUrls) :
    List.Sorted (fun a b : TextMatch => a.start ≤ b.start)
      (findLinkableElements (mkTextParser o) text bu) ∧
    ∀ x ∈ findLinkableElements (mkTextParser o) text bu,
      x.start ≤ x.endPos ∧ x.endPos ≤ text.length ∧
        strExtract text x.start x.endPos = x.text := by
  constructor
  · exact List.sorted_insertionSort startLE _
  · intro x hx
    unfold findLinkableElements at hx
    have hx2 := (List.perm_insertionSort startLE _).mem_iff.mp hx
    simp only [List.mem_append] at hx2
    rcases hx2 with ((((h | h) | h) | h) | h) | h <;>
      exact emitAll_bounds _ text _ x (mem_of_mem_ite h)

/-- Witness for C1 at a concrete text and member record. -/
theorem claim_c1_witness :
    ({ type := .phone, text := " 1234567890".toList, value := "(123) 456-7890".toList,
       start := 4, endPos := 15, url := some "tel:1234567890".toList : TextMatch } ∈
      findLinkableElements (mkTextParser { all := true })
        "Call 1234567890 or visit https://example.com! #support @sarah".toList {}) ∧
    (4 ≤ 15 ∧ 15 ≤ ("Call 1234567890 or visit https://example.com! #support @sarah".toList).length ∧
      strExtract "Call 1234567890 or visit https://example.com! #support @sarah".toList 4 15 =
        " 1234567890".toList) := by
  refine ⟨by decide, ?_⟩
  have h := (claim_c1 { all := true }
      "Call 1234567890 or visit https://example.com! #support @sarah".toList {}).2
    { type := .phone, text := " 1234567890".toList, value := "(123) 456-7890".toList,
      start := 4, endPos := 15, url := some "tel:1234567890".toList } (by decide)
  exact h

/-- Counterexample to claim C2: in the scenario text, the phone separator
class `[-. (]*` also consumes the space before the digits, so the produced
phone record spans `text[4:15]` (raw text `" 1234567890"`); no record with
the claimed span of `"1234567890"` (start 5, end 15) is returned. -/
theorem claim_c2_counterexample :
    ({ type := .phone, text := "1234567890".toList, value := "(123) 456-7890".toList,
       start := 5, endPos := 15, url := some "tel:1234567890".toList : TextMatch } ∉
      findLinkableElements (mkTextParser { all := true })
        "Call 1234567890 or visit https://example.com! #support @sarah".toList {}) := by
  decide

/-- Claim C2 as amended: the scenario yields exactly four ordered matches —
the phone match spans `text[4:15]` with raw text `" 1234567890"` (the regex
consumes the preceding space), value `"(123) 456-7890"` and url
`"tel:1234567890"`; the url, hashtag and mention matches are as claimed. -/
theorem claim_c2_amended :
    findLinkableElements (mkTextParser { all := true })
        "Call 1234567890 or visit https://example.com! #support @sarah".toList {} =
      [{ type := .phone, text := " 1234567890".toList, value := "(123) 456-7890".toList,
         start := 4, endPos := 15, url := some "tel:1234567890".toList },
       { type := .url, text := "https://example.com".toList,
         value := "https://example.com".toList,
         start := 25, endPos := 44, url := some "https://example.com".toList },
       { type := .hashtag, text := "#support".toList, value := "support".toList,
         start := 46, endPos := 54, url := some "/tags/support".toList },
       { type := .mention, text := "@sarah".toList, value := "sarah".toList,
         start := 55, endPos := 61, url := some "/users/sarah".toList }] := by
  decide

/-! ## Digit-structure lemmas for the phone matcher (claim C5) -/

theorem all_take_of_le_takeWhile (p : Char → Bool) (l : Str) (n : Nat)
    (h : n ≤ (l.takeWhile p).length) : (l.take n).all p = true := by
  rw [List.all_eq_true]
  intro x hx
  have h2 : l.take n = (l.takeWhile p).take n := by
    conv_lhs => rw [← List.takeWhile_append_dropWhile p l]
    rw [List.take_append_eq_append_take, Nat.sub_eq_zero_of_le h, List.take_zero,
      List.append_nil]
  rw [h2] at hx
  exact List.mem_takeWhile_imp ((List.take_sublist n _).mem hx)

theorem filter_digit_takeWhile_nil (q : Char → Bool) (l : Str)
    (h : ∀ c, q c = true → Char.isDigit c = false) :
    (l.takeWhile q).filter Char.isDigit = [] := by
  rw [List.filter_eq_nil_iff]
  intro a ha
  simp [h a (List.mem_takeWhile_imp ha)]

theorem filter_digit_self (l : Str) (h : l.all Char.isDigit = true) :
    l.filter Char.isDigit = l :=
  List.filter_eq_self.mpr (List.all_eq_true.mp h)

theorem sep1_not_digit : ∀ c, sep1 c = true → Char.isDigit c = false := by
  intro c h
  simp only [sep1, Bool.or_eq_true, decide_eq_true_eq] at h
  rcases h with ((h | h) | h) | h <;> subst h <;> decide

theorem sep2_not_digit : ∀ c, sep2 c = true → Char.isDigit c = false := by
  intro c h
  simp only [sep2, Bool.or_eq_true, decide_eq_true_eq] at h
  rcases h with ((h | h) | h) | h <;> subst h <;> decide

theorem sep3_not_digit : ∀ c, sep3 c = true → Char.isDigit c = false := by
  intro c h
  simp only [sep3, Bool.or_eq_true, decide_eq_true_eq] at h
  rcases h with (h | h) | h <;> subst h <;> decide

theorem space_not_digit : ∀ c : Char, decide (c = ' ') = true → Char.isDigit c = false := by
  intro c h
  rw [decide_eq_true_eq] at h
  subst h
  decide

theorem extLoop_split (dtail : Str) :
    ∀ (j : Nat), j ≤ (dtail.takeWhile Char.isDigit).length →
      ∀ e rem, extLoop dtail j = some (e, rem) →
        dtail = e ++ rem ∧ e.all Char.isDigit = true := by
  intro j
  induction j with
  | zero => intro _ e rem h; simp [extLoop] at h
  | succ j ih =>
    intro hj e rem h
    rw [extLoop] at h
    by_cases hb : afterDigitB (dtail.drop (j + 1)) = true
    · rw [if_pos hb] at h
      have h2 := Option.some.inj h
      have he : dtail.take (j + 1) = e := congrArg Prod.fst h2
      have hr : dtail.drop (j + 1) = rem := congrArg Prod.snd h2
      refine ⟨?_, ?_⟩
      · rw [← he, ← hr, List.take_append_drop]
      · rw [← he]
        exact all_take_of_le_takeWhile Char.isDigit dtail (j + 1) hj
    · rw [if_neg hb] at h
      exact ih (Nat.le_trans (Nat.le_succ j) hj) e rem h

theorem extAttempt_split (t4 : Str) (e0 rem : Str) (h : extAttempt t4 = some (e0, rem)) :
    ∃ con, t4 = con ++ rem ∧ con.filter Char.isDigit = e0 ∧ e0.all Char.isDigit = true := by
  unfold extAttempt at h
  cases hu : t4.dropWhile (fun c => c = ' ') with
  | nil => rw [hu] at h; exact absurd h (by simp)
  | cons c d =>
    rw [hu] at h
    dsimp only at h
    by_cases hc : c = 'x'
    · rw [if_pos hc] at h
      obtain ⟨hd, hall⟩ := extLoop_split d ((d.takeWhile Char.isDigit).length)
        (Nat.le_refl _) e0 rem h
      refine ⟨t4.takeWhile (fun c => c = ' ') ++ c :: e0, ?_, ?_, hall⟩
      · conv_lhs => rw [← List.takeWhile_append_dropWhile (fun c => c = ' ') t4]
        rw [hu, hd]
        simp
      · rw [List.filter_append, filter_digit_takeWhile_nil _ _ space_not_digit]
        subst hc
        rw [List.filter_cons]
        simp [filter_digit_self e0 hall]
    · rw [if_neg hc] at h
      exact absurd h (by simp)

theorem extPart_split (t4 : Str) (e : Option Str) (rem : Str) (h : extPart t4 = some (e, rem)) :
    ∃ con, t4 = con ++ rem ∧ con.filter Char.isDigit = e.getD [] ∧
      (e.getD []).all Char.isDigit = true := by
  unfold extPart at h
  cases ha : extAttempt t4 with
  | some pr =>
    obtain ⟨e0, rem0⟩ := pr
    rw [ha] at h
    dsimp only at h
    have h2 := Option.some.inj h
    have he : (some e0 : Option Str) = e := congrArg Prod.fst h2
    have hr : rem0 = rem := congrArg Prod.snd h2
    obtain ⟨con, h1, h2f, h3⟩ := extAttempt_split t4 e0 rem0 ha
    subst hr
    exact ⟨con, h1, by rw [← he]; exact h2f, by rw [← he]; exact h3⟩
  | none =>
    rw [ha] at h
    dsimp only at h
    by_cases hb : afterDigitB t4 = true
    · rw [if_pos hb] at h
      have h2 := Option.some.inj h
      have he : (none : Option Str) = e := congrArg Prod.fst h2
      have hr : t4 = rem := congrArg Prod.snd h2
      exact ⟨[], by rw [← hr]; rfl, by rw [← he]; rfl, by rw [← he]; rfl⟩
    · rw [if_neg hb] at h
      exact absurd h (by simp)

theorem groupStep_split (sep : Char → Bool) (hsep : ∀ c, sep c = true → Char.isDigit c = false)
    (n : Nat) (t grp rest : Str) (h : groupStep sep n t = some (grp, rest)) :
    t = t.takeWhile sep ++ grp ++ rest ∧ (t.takeWhile sep).filter Char.isDigit = [] ∧
      grp.all Char.isDigit = true := by
  unfold groupStep at h
  by_cases hc : (((t.dropWhile sep).take n).length = n &&
      ((t.dropWhile sep).take n).all Char.isDigit) = true
  · rw [if_pos hc] at h
    have h2 := Option.some.inj h
    have hg : (t.dropWhile sep).take n = grp := congrArg Prod.fst h2
    have hr : (t.dropWhile sep).drop n = rest := congrArg Prod.snd h2
    refine ⟨?_, filter_digit_takeWhile_nil sep t hsep, ?_⟩
    · rw [← hg, ← hr, List.append_assoc, List.take_append_drop,
        List.takeWhile_append_dropWhile]
    · rw [← hg]
      simp only [Bool.and_eq_true] at hc
      exact hc.2
  · rw [if_neg hc] at h
    exact absurd h (by simp)

theorem phoneCore_split (cc : Option Str) (t : Str) (g : PhoneGroups) (rem : Str)
    (h : phoneCore cc t = some (g, rem)) :
    ∃ con, t = con ++ rem ∧
      con.filter Char.isDigit = g.area ++ g.mid ++ g.line ++ (g.ext.getD []) ∧
      g.cc = cc ∧
      (g.area ++ g.mid ++ g.line ++ (g.ext.getD [])).all Char.isDigit = true := by
  unfold phoneCore at h
  cases h1 : groupStep sep1 3 t with
  | none => rw [h1] at h; exact absurd h (by simp)
  | some pr1 =>
    obtain ⟨area, t2⟩ := pr1
    rw [h1] at h
    dsimp only at h
    cases h2 : groupStep sep2 3 t2 with
    | none => rw [h2] at h; exact absurd h (by simp)
    | some pr2 =>
      obtain ⟨mid, t3⟩ := pr2
      rw [h2] at h
      dsimp only at h
      cases h3 : groupStep sep3 4 t3 with
      | none => rw [h3] at h; exact absurd h (by simp)
      | some pr3 =>
        obtain ⟨line, t4⟩ := pr3
        rw [h3] at h
        dsimp only at h
        cases h4 : extPart t4 with
        | none => rw [h4] at h; exact absurd h (by simp)
        | some pr4 =>
          obtain ⟨e, rem0⟩ := pr4
          rw [h4] at h
          dsimp only at h
          have h5 := Option.some.inj h
          have hgr : ({ cc := cc, area := area, mid := mid, line := line, ext := e } :
              PhoneGroups) = g := congrArg Prod.fst h5
          have hre : rem0 = rem := congrArg Prod.snd h5
          obtain ⟨hd1, hf1, ha1⟩ := groupStep_split sep1 sep1_not_digit 3 t area t2 h1
          obtain ⟨hd2, hf2, ha2⟩ := groupStep_split sep2 sep2_not_digit 3 t2 mid t3 h2
          obtain ⟨hd3, hf3, ha3⟩ := groupStep_split sep3 sep3_not_digit 4 t3 line t4 h3
          obtain ⟨conE, he1, he2, he3⟩ := extPart_split t4 e rem0 h4
          subst hre
          refine ⟨t.takeWhile sep1 ++ area ++ (t2.takeWhile sep2 ++ mid ++
            (t3.takeWhile sep3 ++ line ++ conE)), ?_, ?_, ?_, ?_⟩
          · conv_lhs => rw [hd1, hd2, hd3, he1]
            simp [List.append_assoc]
          · rw [← hgr]
            simp only [List.filter_append, hf1, hf2, hf3, he2,
              filter_digit_self area ha1, filter_digit_self mid ha2,
              filter_digit_self line ha3]
            simp
          · rw [← hgr]
          · rw [← hgr]
            simp [List.all_append, ha1, ha2, ha3, he3]

theorem ccLoop_split (t : Str) (dr : Nat) :
    ∀ (j : Nat) (g : PhoneGroups) (rem : Str), ccLoop t dr j = some (g, rem) →
      ∃ n, 1 ≤ n ∧ n ≤ dr ∧
        phoneCore (some (t.take n)) (t.drop n) = some (g, rem) := by
  intro j
  induction j with
  | zero => intro g rem h; simp [ccLoop] at h
  | succ j ih =>
    intro g rem h
    rw [ccLoop] at h
    by_cases hj : j + 1 ≤ dr
    · rw [if_pos hj] at h
      cases hc : phoneCore (some (t.take (j + 1))) (t.drop (j + 1)) with
      | some r =>
        rw [hc] at h
        dsimp only at h
        exact ⟨j + 1, by omega, hj, by rw [hc, Option.some.inj h]⟩
      | none =>
        rw [hc] at h
        dsimp only at h
        exact ih g rem h
    · rw [if_neg hj] at h
      dsimp only at h
      exact ih g rem h

theorem phoneMatchAt_split (prev : Option Char) (s : Str) (g : PhoneGroups) (rem : Str)
    (h : phoneMatchAt prev s = some (g, rem)) :
    ∃ con, s = con ++ rem ∧
      con.filter Char.isDigit =
        (g.cc.getD []) ++ g.area ++ g.mid ++ g.line ++ (g.ext.getD []) ∧
      ((g.cc.getD []) ++ g.area ++ g.mid ++ g.line ++ (g.ext.getD [])).all Char.isDigit
        = true := by
  have hplain : ∀ (s2 : Str), (match ccLoop s2 ((s2.takeWhile Char.isDigit).length) 3 with
      | some r => some r
      | none => phoneCore none s2) = some (g, rem) →
      ∃ con, s2 = con ++ rem ∧
        con.filter Char.isDigit =
          (g.cc.getD []) ++ g.area ++ g.mid ++ g.line ++ (g.ext.getD []) ∧
        ((g.cc.getD []) ++ g.area ++ g.mid ++ g.line ++ (g.ext.getD [])).all Char.isDigit
          = true := by
    intro s2 h2
    cases hc : ccLoop s2 ((s2.takeWhile Char.isDigit).length) 3 with
    | some r =>
      rw [hc] at h2
      dsimp only at h2
      rw [h2] at hc
      obtain ⟨n, hn1, hn2, hcore⟩ := ccLoop_split s2 _ 3 g rem hc
      obtain ⟨con, hcon, hfil, hcc, hall⟩ := phoneCore_split (some (s2.take n)) (s2.drop n)
        g rem hcore
      have hdig : (s2.take n).all Char.isDigit = true :=
        all_take_of_le_takeWhile Char.isDigit s2 n hn2
      refine ⟨s2.take n ++ con, ?_, ?_, ?_⟩
      · rw [List.append_assoc, ← hcon, List.take_append_drop]
      · rw [List.filter_append, hfil, filter_digit_self _ hdig, hcc]
        simp [List.append_assoc]
      · rw [hcc]
        simp only [Option.getD_some]
        simp only [List.append_assoc] at hall ⊢
        simp [List.all_append, hdig]
        simp [List.all_append] at hall
        exact hall
    | none =>
      rw [hc] at h2
      dsimp only at h2
      obtain ⟨con, hcon, hfil, hcc, hall⟩ := phoneCore_split none s2 g rem h2
      refine ⟨con, hcon, ?_, ?_⟩
      · rw [hcc]
        simpa using hfil
      · rw [hcc]
        simpa using hall
  unfold phoneMatchAt at h
  cases s with
  | nil => exact hplain [] h
  | cons c t =>
    dsimp only at h
    by_cases hc : c = '+'
    · rw [if_pos hc] at h
      cases hcl : ccLoop t ((t.takeWhile Char.isDigit).length) 3 with
      | some r =>
        rw [hcl] at h
        dsimp only at h
        rw [h] at hcl
        obtain ⟨n, hn1, hn2, hcore⟩ := ccLoop_split t _ 3 g rem hcl
        obtain ⟨con, hcon, hfil, hcc, hall⟩ := phoneCore_split (some (t.take n)) (t.drop n)
          g rem hcore
        have hdig : (t.take n).all Char.isDigit = true :=
          all_take_of_le_takeWhile Char.isDigit t n hn2
        refine ⟨c :: (t.take n ++ con), ?_, ?_, ?_⟩
        · rw [List.cons_append, List.append_assoc, ← hcon, List.take_append_drop]
        · subst hc
          rw [List.filter_cons]
          have hpd : Char.isDigit '+' = false := rfl
          rw [hpd]
          simp only [Bool.false_eq_true, if_false]
          rw [List.filter_append, hfil, filter_digit_self _ hdig, hcc]
          simp [List.append_assoc]
        · rw [hcc]
          simp only [Option.getD_some]
          simp only [List.append_assoc] at hall ⊢
          simp [List.all_append, hdig]
          simp [List.all_append] at hall
          exact hall
      | none =>
        rw [hcl] at h
        dsimp only at h
        obtain ⟨con, hcon, hfil, hcc, hall⟩ := phoneCore_split none (c :: t) g rem h
        refine ⟨con, hcon, ?_, ?_⟩
        · rw [hcc]
          simpa using hfil
        · rw [hcc]
          simpa using hall
    · rw [if_neg hc] at h
      exact hplain (c :: t) h

theorem phoneFormatted_digits (g : PhoneGroups)
    (h : ((g.cc.getD []) ++ g.area ++ g.mid ++ g.line ++ (g.ext.getD [])).all Char.isDigit
      = true) :
    (phoneFormatted g).filter Char.isDigit =
      (g.cc.getD []) ++ g.area ++ g.mid ++ g.line ++ (g.ext.getD []) := by
  have hs := h
  simp only [List.all_append, Bool.and_eq_true] at hs
  obtain ⟨⟨⟨⟨hcc, ha⟩, hm⟩, hl⟩, he⟩ := hs
  have d1 : Char.isDigit '+' = false := rfl
  have d2 : Char.isDigit '(' = false := rfl
  have d3 : Char.isDigit ')' = false := rfl
  have d4 : Char.isDigit ' ' = false := rfl
  have d5 : Char.isDigit '-' = false := rfl
  have d6 : Char.isDigit 'x' = false := rfl
  cases hgc : g.cc with
  | none =>
    rw [hgc] at hcc
    cases hge : g.ext with
    | none =>
      simp only [phoneFormatted, hgc, hge, Option.getD_none]
      simp [List.filter_append, List.filter_cons, d2, d3, d4, d5,
        filter_digit_self _ ha, filter_digit_self _ hm, filter_digit_self _ hl]
    | some e =>
      rw [hge] at he
      simp only [Option.getD_some] at he
      simp only [phoneFormatted, hgc, hge, Option.getD_none, Option.getD_some]
      simp [List.filter_append, List.filter_cons, d2, d3, d4, d5, d6,
        filter_digit_self _ ha, filter_digit_self _ hm, filter_digit_self _ hl,
        filter_digit_self _ he]
  | some cc =>
    rw [hgc] at hcc
    simp only [Option.getD_some] at hcc
    cases hge : g.ext with
    | none =>
      simp only [phoneFormatted, hgc, hge, Option.getD_none, Option.getD_some]
      simp [List.filter_append, List.filter_cons, d1, d2, d3, d4, d5,
        filter_digit_self _ hcc, filter_digit_self _ ha, filter_digit_self _ hm,
        filter_digit_self _ hl]
    | some e =>
      rw [hge] at he
      simp only [Option.getD_some] at he
      simp only [phoneFormatted, hgc, hge, Option.getD_some]
      simp [List.filter_append, List.filter_cons, d1, d2, d3, d4, d5, d6,
        filter_digit_self _ hcc, filter_digit_self _ ha, filter_digit_self _ hm,
        filter_digit_self _ hl, filter_digit_self _ he]

/-- Claim C5: phone formatting is lossless over digits — for every phone
record produced by `findLinkableElements`, the digit characters of the
formatted `value` equal the digit characters of the raw matched text, in
order. -/
theorem claim_c5 (o : ParseOptions) (text : Str) (bu : BaseUrls) (x : TextMatch)
    (hm : x ∈ findLinkableElements (mkTextParser o) text bu) (ht : x.type = .phone) :
    x.value.filter Char.isDigit = x.text.filter Char.isDigit := by
  unfold findLinkableElements at hm
  have hx2 := (List.perm_insertionSort startLE _).mem_iff.mp hm
  simp only [List.mem_append] at hx2
  rcases hx2 with ((((h | h) | h) | h) | h) | h
  · exfalso
    rcases (emitAll_mem_iff _ _ _ _).mp (mem_of_mem_ite h) with ⟨pr, _, hxe⟩
    rw [hxe] at ht
    simp at ht
  · exfalso
    rcases (emitAll_mem_iff _ _ _ _).mp (mem_of_mem_ite h) with ⟨pr, _, hxe⟩
    rw [hxe] at ht
    simp at ht
  · exfalso
    rcases (emitAll_mem_iff _ _ _ _).mp (mem_of_mem_ite h) with ⟨pr, _, hxe⟩
    rw [hxe] at ht
    simp at ht
  · exfalso
    rcases (emitAll_mem_iff _ _ _ _).mp (mem_of_mem_ite h) with ⟨pr, _, hxe⟩
    rw [hxe] at ht
    simp at ht
  · rcases (emitAll_mem_iff _ _ _ _).mp (mem_of_mem_ite h) with ⟨pr, hpr, hxe⟩
    obtain ⟨hb, prev2, rem, hmatch, hlen⟩ := scanAll_mem _ text pr hpr
    obtain ⟨con, hcon, hfil, hall⟩ :=
      phoneMatchAt_split prev2 (text.drop pr.1) pr.2.2 rem hmatch
    have hlen2 : pr.2.1 = con.length := by
      rw [hlen, hcon]
      simp
    have hsub : pr.1 + pr.2.1 - pr.1 = pr.2.1 := by omega
    have hraw : strExtract text pr.1 (pr.1 + pr.2.1) = con := by
      unfold strExtract
      rw [hsub, hcon, hlen2]
      exact List.take_left con rem
    rw [hxe]
    dsimp only
    rw [hraw, phoneFormatted_digits pr.2.2 hall, hfil]
  · exfalso
    rcases (emitAll_mem_iff _ _ _ _).mp (mem_of_mem_ite h) with ⟨pr, _, hxe⟩
    rw [hxe] at ht
    simp at ht

/-- Witness for C5 at the concrete phone record of the scenario text. -/
theorem claim_c5_witness :
    ({ type := .phone, text := " 1234567890".toList, value := "(123) 456-7890".toList,
       start := 4, endPos := 15, url := some "tel:1234567890".toList : TextMatch } ∈
      findLinkableElements (mkTextParser { all := true })
        "Call 1234567890 or visit https://example.com! #support @sarah".toList {}) ∧
    ("(123) 456-7890".toList.filter Char.isDigit =
      " 1234567890".toList.filter Char.isDigit) := by
  refine ⟨by decide, ?_⟩
  exact claim_c5 { all := true }
    "Call 1234567890 or visit https://example.com! #support @sarah".toList {}
    { type := .phone, text := " 1234567890".toList, value := "(123) 456-7890".toList,
      start := 4, endPos := 15, url := some "tel:1234567890".toList }
    (by decide) rfl
